import Mathlib

/-!
Verification development for the `clocking` time-tracking program.

The store model below is a shallow embedding of `src/sqlite_store.rs`:
a `Store` is the `clocking` table (`id INTEGER PRIMARY KEY, title TEXT,
start TEXT, end TEXT NULL, notes TEXT NULL`) as a list of rows plus the
next fresh primary key.  Timestamps are modelled as natural numbers;
the SQL string comparisons on the stored RFC 3339 text agree with the
chronological order (proved separately in the `Rfc` section below, for
the encoding produced by `to_rfc3339`), so `<`/`≤` on `Nat` is a
faithful rendering of the comparisons in the SQL statements.
-/

namespace Clocking

/-- Error type from `src/errors.rs` (`Error` enum). -/
inductive Err where
  | underlyingError (msg : String)
  | impossibleState (msg : String)
  | invalidInput (msg : String)
  | unfinishedExists (title : String)
  | duplicateEntry
deriving DecidableEq, Repr

/-- Row of the `clocking` table.  `endT` is the nullable `end` column. -/
structure Row where
  rowId : Nat
  title : String
  start : Nat
  endT : Option Nat
  notes : String
deriving DecidableEq, Repr

/-- The sqlite store: rows of the `clocking` table plus the next fresh
`INTEGER PRIMARY KEY` value. -/
structure Store where
  rows : List Row
  nextId : Nat
deriving DecidableEq, Repr

/-- Freshly initialized store (empty `clocking` table). -/
def Store.empty : Store := ⟨[], 0⟩

/-- Model of `SqliteStore::start_entry` (src/sqlite_store.rs:77-104):
`SELECT id FROM clocking WHERE title = ? and start = ?`; a hit yields
`Err(Error::DuplicateEntry)`, otherwise
`INSERT INTO clocking (title, start, notes) VALUES(?, ?, ?)`. -/
def startEntry (s : Store) (title : String) (start : Nat) (notes : String) :
    Except Err Store :=
  if s.rows.any (fun r => r.title == title && r.start == start) then
    .error .duplicateEntry
  else
    .ok ⟨s.rows ++ [⟨s.nextId, title, start, none, notes⟩], s.nextId + 1⟩

/-- Model of the trait-default `ClockingStore::start` (src/lib.rs:21-32):
builds an `UnfinishedEntry` with `start = Utc::now()` and empty notes and
delegates to `start_entry`.  No validation of `title` happens here. -/
def start (s : Store) (title : String) (now : Nat) : Except Err Store :=
  startEntry s title now ""

/-- Model of SQL `max(...)` over a result column. -/
def maxNat : List Nat → Option Nat
  | [] => none
  | x :: xs =>
    match maxNat xs with
    | none => some x
    | some m => some (max x m)

/-- Primary keys of unfinished rows carrying `title`
(`SELECT ... FROM clocking WHERE end is NULL and title = ?`). -/
def unfinishedIdsOf (s : Store) (title : String) : List Nat :=
  (s.rows.filter (fun r => r.endT.isNone && r.title == title)).map (·.rowId)

/-- Primary keys of all unfinished rows
(`SELECT ... FROM clocking WHERE end is NULL`). -/
def unfinishedIds (s : Store) : List Nat :=
  (s.rows.filter (fun r => r.endT.isNone)).map (·.rowId)

/-- Finish one row: set `end`, append to notes
(`set end = ?, notes = IFNULL(notes, '')||?`). -/
def finishRow (r : Row) (endT : Nat) (notes : String) : Row :=
  { r with endT := some endT, notes := r.notes ++ notes }

/-- Effect, on one row, of the two `UPDATE ... where id in (SELECT max(id)
...)` statements once the selected primary key `mid` is known. -/
def finishById (mid now : Nat) (notes : String) (r : Row) : Row :=
  if r.rowId == mid then finishRow r now notes else r

/-- Model of `SqliteStore::try_finish_title` (src/sqlite_store.rs:106-123):
`UPDATE clocking set end = ?, notes = IFNULL(notes, '')||? where id in
(SELECT max(id) FROM clocking WHERE end is NULL and title = ?)` with
`end = Utc::now()`; 0 updated rows is `Ok(false)`, 1 is `Ok(true)`, more
is `Err(ImpossibleState)`. -/
def tryFinishTitle (s : Store) (now : Nat) (title notes : String) :
    Except Err (Store × Bool) :=
  match maxNat (unfinishedIdsOf s title) with
  | none => .ok (s, false)
  | some mid =>
    match (s.rows.filter (fun r => r.rowId == mid)).length with
    | 0 => .ok (s, false)
    | 1 => .ok (⟨s.rows.map (finishById mid now notes), s.nextId⟩, true)
    | _ => .error (.impossibleState "more than one row updated")

/-- Model of `SqliteStore::try_finish_any` (src/sqlite_store.rs:125-139):
same `UPDATE` without the title filter, `returning title`; no matching
row is `Ok(None)`. -/
def tryFinishAny (s : Store) (now : Nat) (notes : String) :
    Except Err (Store × Option String) :=
  match maxNat (unfinishedIds s) with
  | none => .ok (s, none)
  | some mid =>
    match s.rows.find? (fun r => r.rowId == mid) with
    | none => .ok (s, none)
    | some r => .ok (⟨s.rows.map (finishById mid now notes), s.nextId⟩, some r.title)

/-- Condition of the `UPDATE` in `try_finish_entry`:
`title = ? and start = ? and end IS NULL and start < ?`. -/
def finishEntryMatch (title : String) (start endT : Nat) (r : Row) : Bool :=
  r.title == title && r.start == start && r.endT.isNone && decide (r.start < endT)

/-- Effect of the `try_finish_entry` `UPDATE` on one row. -/
def finishByEntry (title : String) (start endT : Nat) (notes : String) (r : Row) : Row :=
  if finishEntryMatch title start endT r then finishRow r endT notes else r

/-- Model of `SqliteStore::try_finish_entry` (src/sqlite_store.rs:141-151):
`UPDATE clocking SET end = ?, notes = IFNULL(notes, '')||? WHERE title = ?
and start = ? and end IS NULL and start < ?`; `Ok(1) => Ok(true)`,
`Ok(0) => Ok(false)`, other counts are `Err(ImpossibleState)`. -/
def tryFinishEntry (s : Store) (title : String) (start endT : Nat) (notes : String) :
    Except Err (Store × Bool) :=
  match (s.rows.filter (finishEntryMatch title start endT)).length with
  | 0 => .ok (s, false)
  | 1 => .ok (⟨s.rows.map (finishByEntry title start endT notes), s.nextId⟩, true)
  | _ => .error (.impossibleState "abnormal updated count")

/-- Filter of `SqliteStore::finished` (src/sqlite_store.rs:153-166):
`where start >= ? and end is not null and end <= ?`. -/
def finishedMatch (qs qe : Nat) (r : Row) : Bool :=
  decide (qs ≤ r.start) &&
    (match r.endT with
     | some e => decide (e ≤ qe)
     | none => false)

/-- Comparison used by `order by start`. -/
def rowLe (a b : Row) : Prop := a.start ≤ b.start

instance : DecidableRel rowLe := fun a b => Nat.decLe a.start b.start

instance : IsTotal Row rowLe := ⟨fun a b => Nat.le_total a.start b.start⟩

instance : IsTrans Row rowLe := ⟨fun _ _ _ => Nat.le_trans⟩

/-- Model of `SqliteStore::finished`: the filtered rows `order by start`;
`query_end` defaults to `Utc::now()` when `None`.  The SQL `ORDER BY` (a
stable sort on the `start` column) is rendered as an insertion sort,
which computes the same list as any stable sort by `start`. -/
def finishedQuery (s : Store) (qs : Nat) (qe : Option Nat) (now : Nat) : List Row :=
  List.insertionSort rowLe (s.rows.filter (finishedMatch qs (qe.getD now)))

/-- One store-mutating API call, with its explicit time arguments;
`finishTitle`/`finishAny` carry the `Utc::now()` the source reads. -/
inductive Op where
  | start (title : String) (startT : Nat) (notes : String)
  | finishTitle (now : Nat) (title notes : String)
  | finishAny (now : Nat) (notes : String)
  | finishEntry (title : String) (startT endT : Nat) (notes : String)
deriving DecidableEq, Repr

/-- Wall-clock moment an operation carries: the `start` argument of
`start_entry`, the `Utc::now()` of the title/any finishes, the `end`
argument of `try_finish_entry`. -/
def Op.time : Op → Nat
  | .start _ st _ => st
  | .finishTitle now _ _ => now
  | .finishAny now _ => now
  | .finishEntry _ _ e _ => e

/-- Post-state of one API call (errors leave the store unchanged, as the
failing SQL statements write nothing). -/
def stepOp (s : Store) : Op → Store
  | .start t st no =>
    match startEntry s t st no with
    | .ok s₂ => s₂
    | .error _ => s
  | .finishTitle now t no =>
    match tryFinishTitle s now t no with
    | .ok (s₂, _) => s₂
    | .error _ => s
  | .finishAny now no =>
    match tryFinishAny s now no with
    | .ok (s₂, _) => s₂
    | .error _ => s
  | .finishEntry t st e no =>
    match tryFinishEntry s t st e no with
    | .ok (s₂, _) => s₂
    | .error _ => s

/-- Run a sequence of API calls. -/
def runOps (s : Store) : List Op → Store
  | [] => s
  | o :: os => runOps (stepOp s o) os

/-- Subset of `rocket::http::Status` used by `server.rs::api_start`. -/
inductive HStatus where
  | ok
  | badRequest
  | internalServerError
deriving DecidableEq, Repr

/-- Model of the HTTP handler `api_start` (src/server.rs:86-97): an empty
title is answered with `Status::BadRequest` before the store is touched;
otherwise `store.start(title)` runs and errors map to 500. -/
def apiStart (s : Store) (title : String) (now : Nat) : HStatus × Store :=
  if title.isEmpty then (.badRequest, s)
  else
    match start s title now with
    | .ok s₂ => (.ok, s₂)
    | .error _ => (.internalServerError, s)

/-- A finished row must end strictly after it starts (spec invariant
`end > start`); unfinished rows are unconstrained. -/
def rowOk (r : Row) : Bool :=
  match r.endT with
  | some e => decide (r.start < e)
  | none => true

/-- Spec invariant for a whole store: every finished row has `end > start`. -/
def endsAfterStart (s : Store) : Prop := ∀ r ∈ s.rows, rowOk r = true

/-- Structural well-formedness the sqlite schema provides: primary keys
are distinct and below the next fresh key. -/
def WF (s : Store) : Prop :=
  (s.rows.map (·.rowId)).Nodup ∧ ∀ r ∈ s.rows, r.rowId < s.nextId

/-- A store never produced by the API alone, but allowed by the schema:
no two rows share the natural key `(title, start)` (spec §3: the pair
is the natural key; `start_entry` rejects duplicates). -/
def keysNodup (s : Store) : Prop :=
  (s.rows.map (fun r => (r.title, r.start))).Nodup

theorem maxNat_mem : ∀ {l : List Nat} {m : Nat}, maxNat l = some m → m ∈ l := by
  intro l
  induction l with
  | nil => intro m h; simp [maxNat] at h
  | cons x xs ih =>
    intro m h
    simp only [maxNat] at h
    cases hx : maxNat xs with
    | none => rw [hx] at h; simp at h; simp [h]
    | some m₂ =>
      rw [hx] at h
      simp at h
      rcases max_choice x m₂ with h₂ | h₂ <;> rw [h₂] at h
      · simp [h]
      · have := ih (hx.trans (by rw [h]))
        simp [this]

theorem maxNat_ge : ∀ {l : List Nat} {m : Nat}, maxNat l = some m →
    ∀ x ∈ l, x ≤ m := by
  intro l
  induction l with
  | nil => intro m _ x hx; simp at hx
  | cons y ys ih =>
    intro m h x hx
    simp only [maxNat] at h
    cases hy : maxNat ys with
    | none =>
      rw [hy] at h; simp at h
      cases ys with
      | nil => simp at hx; omega
      | cons z zs => simp [maxNat] at hy; cases hz : maxNat zs <;> rw [hz] at hy <;> simp at hy
    | some m₂ =>
      rw [hy] at h; simp at h
      rcases List.mem_cons.mp hx with rfl | hx₂
      · omega
      · have := ih hy x hx₂
        omega

theorem maxNat_isSome {l : List Nat} {x : Nat} (hx : x ∈ l) :
    (maxNat l).isSome = true := by
  induction l with
  | nil => simp at hx
  | cons y ys ih =>
    simp only [maxNat]
    cases hy : maxNat ys with
    | none => simp
    | some m => simp

theorem tryFinishTitle_cases (s : Store) (now : Nat) (t no : String) :
    tryFinishTitle s now t no = .ok (s, false) ∨
    (∃ mid, maxNat (unfinishedIdsOf s t) = some mid ∧
      tryFinishTitle s now t no =
        .ok (⟨s.rows.map (finishById mid now no), s.nextId⟩, true)) ∨
    tryFinishTitle s now t no = .error (.impossibleState "more than one row updated") := by
  unfold tryFinishTitle
  split
  · exact Or.inl rfl
  · rename_i mid heq
    split
    · exact Or.inl rfl
    · exact Or.inr (Or.inl ⟨mid, heq, rfl⟩)
    · exact Or.inr (Or.inr rfl)

theorem tryFinishAny_cases (s : Store) (now : Nat) (no : String) :
    tryFinishAny s now no = .ok (s, none) ∨
    ∃ (mid : Nat) (r : Row), maxNat (unfinishedIds s) = some mid ∧
      tryFinishAny s now no =
        .ok (⟨s.rows.map (finishById mid now no), s.nextId⟩, some r.title) := by
  unfold tryFinishAny
  split
  · exact Or.inl rfl
  · rename_i mid heq
    split
    · exact Or.inl rfl
    · rename_i r hf
      exact Or.inr ⟨mid, r, heq, rfl⟩

theorem tryFinishEntry_cases (s : Store) (t : String) (st e : Nat) (no : String) :
    tryFinishEntry s t st e no = .ok (s, false) ∨
    tryFinishEntry s t st e no =
      .ok (⟨s.rows.map (finishByEntry t st e no), s.nextId⟩, true) ∨
    tryFinishEntry s t st e no = .error (.impossibleState "abnormal updated count") := by
  unfold tryFinishEntry
  split
  · exact Or.inl rfl
  · exact Or.inr (Or.inl rfl)
  · exact Or.inr (Or.inr rfl)

theorem stepOp_start_cases (s : Store) (t : String) (st : Nat) (no : String) :
    stepOp s (.start t st no) = s ∨
    stepOp s (.start t st no) =
      ⟨s.rows ++ [⟨s.nextId, t, st, none, no⟩], s.nextId + 1⟩ := by
  rcases Bool.eq_false_or_eq_true (s.rows.any fun r => r.title == t && r.start == st)
    with h | h
  · left; simp [stepOp, startEntry, h]
  · right; simp [stepOp, startEntry, h]

theorem stepOp_finishTitle_cases (s : Store) (now : Nat) (t no : String) :
    stepOp s (.finishTitle now t no) = s ∨
    ∃ mid, maxNat (unfinishedIdsOf s t) = some mid ∧
      stepOp s (.finishTitle now t no) =
        ⟨s.rows.map (finishById mid now no), s.nextId⟩ := by
  rcases tryFinishTitle_cases s now t no with h | ⟨mid, hmid, h⟩ | h
  · left; simp [stepOp, h]
  · right; exact ⟨mid, hmid, by simp [stepOp, h]⟩
  · left; simp [stepOp, h]

theorem stepOp_finishAny_cases (s : Store) (now : Nat) (no : String) :
    stepOp s (.finishAny now no) = s ∨
    ∃ mid, maxNat (unfinishedIds s) = some mid ∧
      stepOp s (.finishAny now no) =
        ⟨s.rows.map (finishById mid now no), s.nextId⟩ := by
  rcases tryFinishAny_cases s now no with h | ⟨mid, r, hmid, h⟩
  · left; simp [stepOp, h]
  · right; exact ⟨mid, hmid, by simp [stepOp, h]⟩

theorem stepOp_finishEntry_cases (s : Store) (t : String) (st e : Nat) (no : String) :
    stepOp s (.finishEntry t st e no) = s ∨
    stepOp s (.finishEntry t st e no) =
      ⟨s.rows.map (finishByEntry t st e no), s.nextId⟩ := by
  rcases tryFinishEntry_cases s t st e no with h | h | h
  · left; simp [stepOp, h]
  · right; simp [stepOp, h]
  · left; simp [stepOp, h]

theorem finishById_rowId (mid now : Nat) (no : String) (r : Row) :
    (finishById mid now no r).rowId = r.rowId := by
  unfold finishById finishRow
  split <;> rfl

theorem finishByEntry_rowId (t : String) (st e : Nat) (no : String) (r : Row) :
    (finishByEntry t st e no r).rowId = r.rowId := by
  unfold finishByEntry finishRow
  split <;> rfl

theorem WF_map_rowId_preserving (s : Store) (u : Row → Row)
    (hu : ∀ r, (u r).rowId = r.rowId) (hWF : WF s) :
    WF ⟨s.rows.map u, s.nextId⟩ := by
  obtain ⟨hnd, hlt⟩ := hWF
  constructor
  · rw [List.map_map]
    have : ((·.rowId) ∘ u : Row → Nat) = (·.rowId) := funext fun r => hu r
    rw [this]; exact hnd
  · intro r₂ hr₂
    rcases List.mem_map.mp hr₂ with ⟨r, hr, rfl⟩
    rw [hu]; exact hlt r hr

theorem mem_unfinishedIdsOf {s : Store} {t : String} {mid : Nat}
    (h : mid ∈ unfinishedIdsOf s t) :
    ∃ r ∈ s.rows, r.rowId = mid ∧ r.endT = none ∧ r.title = t := by
  rcases List.mem_map.mp h with ⟨r, hr, rfl⟩
  rcases List.mem_filter.mp hr with ⟨hmem, hp⟩
  simp only [Bool.and_eq_true, Option.isNone_iff_eq_none, beq_iff_eq] at hp
  exact ⟨r, hmem, rfl, hp.1, hp.2⟩

theorem mem_unfinishedIds {s : Store} {mid : Nat}
    (h : mid ∈ unfinishedIds s) :
    ∃ r ∈ s.rows, r.rowId = mid ∧ r.endT = none := by
  rcases List.mem_map.mp h with ⟨r, hr, rfl⟩
  rcases List.mem_filter.mp hr with ⟨hmem, hp⟩
  simp only [Option.isNone_iff_eq_none] at hp
  exact ⟨r, hmem, rfl, hp⟩

/-- With distinct primary keys, `finishById mid` leaves every row other
than the unique unfinished row `r₀` carrying key `mid` untouched, and
finishes `r₀`. -/
theorem finishById_eq_of_ne {mid now : Nat} {no : String} {r : Row}
    (h : r.rowId ≠ mid) : finishById mid now no r = r := by
  unfold finishById
  simp [h]

theorem finishById_eq_of_eq {mid now : Nat} {no : String} {r : Row}
    (h : r.rowId = mid) : finishById mid now no r = finishRow r now no := by
  unfold finishById
  simp [h]

theorem WF_stepOp (s : Store) (o : Op) (hWF : WF s) : WF (stepOp s o) := by
  cases o with
  | start t st no =>
    rcases stepOp_start_cases s t st no with h | h
    · rw [h]; exact hWF
    · rw [h]
      obtain ⟨hnd, hlt⟩ := hWF
      constructor
      · rw [List.map_append]
        refine List.Nodup.append hnd (by simp) ?_
        intro x hx hx₂
        simp only [List.map_cons, List.map_nil, List.mem_singleton] at hx₂
        rcases List.mem_map.mp hx with ⟨r, hr, rfl⟩
        have := hlt r hr
        omega
      · intro r hr
        show r.rowId < s.nextId + 1
        rcases List.mem_append.mp hr with h₂ | h₂
        · have := hlt r h₂; omega
        · simp only [List.mem_singleton] at h₂
          rw [h₂]
          exact Nat.lt_succ_self _
  | finishTitle now t no =>
    rcases stepOp_finishTitle_cases s now t no with h | ⟨mid, hmid, h⟩
    · rw [h]; exact hWF
    · rw [h]; exact WF_map_rowId_preserving s _ (finishById_rowId mid now no) hWF
  | finishAny now no =>
    rcases stepOp_finishAny_cases s now no with h | ⟨mid, hmid, h⟩
    · rw [h]; exact hWF
    · rw [h]; exact WF_map_rowId_preserving s _ (finishById_rowId mid now no) hWF
  | finishEntry t st e no =>
    rcases stepOp_finishEntry_cases s t st e no with h | h
    · rw [h]; exact hWF
    · rw [h]; exact WF_map_rowId_preserving s _ (finishByEntry_rowId t st e no) hWF

theorem endsAfterStart_stepOp (s : Store) (o : Op) (hWF : WF s)
    (hFin : endsAfterStart s)
    (hUnf : ∀ r ∈ s.rows, r.endT = none → r.start < o.time) :
    endsAfterStart (stepOp s o) := by
  cases o with
  | start t st no =>
    rcases stepOp_start_cases s t st no with h | h
    · rw [h]; exact hFin
    · rw [h]
      intro r hr
      rcases List.mem_append.mp hr with h₂ | h₂
      · exact hFin r h₂
      · simp only [List.mem_singleton] at h₂
        rw [h₂]; rfl
  | finishTitle now t no =>
    rcases stepOp_finishTitle_cases s now t no with h | ⟨mid, hmid, h⟩
    · rw [h]; exact hFin
    · rw [h]
      intro r₂ hr₂
      rcases List.mem_map.mp hr₂ with ⟨r, hr, rfl⟩
      rcases mem_unfinishedIdsOf (maxNat_mem hmid) with ⟨r₀, hr₀, hid₀, hend₀, -⟩
      by_cases hc : r.rowId = mid
      · have hre : r = r₀ := List.inj_on_of_nodup_map hWF.1 hr hr₀ (by rw [hc, hid₀])
        rw [finishById_eq_of_eq hc]
        have hlt : r.start < now := hUnf r hr (by rw [hre]; exact hend₀)
        simp [finishRow, rowOk, hlt]
      · rw [finishById_eq_of_ne hc]
        exact hFin r hr
  | finishAny now no =>
    rcases stepOp_finishAny_cases s now no with h | ⟨mid, hmid, h⟩
    · rw [h]; exact hFin
    · rw [h]
      intro r₂ hr₂
      rcases List.mem_map.mp hr₂ with ⟨r, hr, rfl⟩
      rcases mem_unfinishedIds (maxNat_mem hmid) with ⟨r₀, hr₀, hid₀, hend₀⟩
      by_cases hc : r.rowId = mid
      · have hre : r = r₀ := List.inj_on_of_nodup_map hWF.1 hr hr₀ (by rw [hc, hid₀])
        rw [finishById_eq_of_eq hc]
        have hlt : r.start < now := hUnf r hr (by rw [hre]; exact hend₀)
        simp [finishRow, rowOk, hlt]
      · rw [finishById_eq_of_ne hc]
        exact hFin r hr
  | finishEntry t st e no =>
    rcases stepOp_finishEntry_cases s t st e no with h | h
    · rw [h]; exact hFin
    · rw [h]
      intro r₂ hr₂
      rcases List.mem_map.mp hr₂ with ⟨r, hr, rfl⟩
      unfold finishByEntry
      by_cases hm : finishEntryMatch t st e r = true
      · rw [if_pos hm]
        have hlt : r.start < e := by
          unfold finishEntryMatch at hm
          simp only [Bool.and_eq_true, decide_eq_true_eq] at hm
          exact hm.2
        simp [finishRow, rowOk, hlt]
      · rw [if_neg hm]
        exact hFin r hr

theorem unfinished_stepOp (s : Store) (o : Op) :
    ∀ r₂ ∈ (stepOp s o).rows, r₂.endT = none →
      (∃ r ∈ s.rows, r.endT = none ∧ r₂.start = r.start) ∨ r₂.start = o.time := by
  cases o with
  | start t st no =>
    rcases stepOp_start_cases s t st no with h | h <;> rw [h]
    · intro r₂ h₂ he; exact Or.inl ⟨r₂, h₂, he, rfl⟩
    · intro r₂ h₂ he
      rcases List.mem_append.mp h₂ with hm | hm
      · exact Or.inl ⟨r₂, hm, he, rfl⟩
      · simp only [List.mem_singleton] at hm
        rw [hm]; exact Or.inr rfl
  | finishTitle now t no =>
    rcases stepOp_finishTitle_cases s now t no with h | ⟨mid, hmid, h⟩ <;> rw [h]
    · intro r₂ h₂ he; exact Or.inl ⟨r₂, h₂, he, rfl⟩
    · intro r₂ h₂ he
      rcases List.mem_map.mp h₂ with ⟨r, hr, rfl⟩
      by_cases hc : r.rowId = mid
      · rw [finishById_eq_of_eq hc] at he
        simp [finishRow] at he
      · rw [finishById_eq_of_ne hc] at he ⊢
        exact Or.inl ⟨r, hr, he, rfl⟩
  | finishAny now no =>
    rcases stepOp_finishAny_cases s now no with h | ⟨mid, hmid, h⟩ <;> rw [h]
    · intro r₂ h₂ he; exact Or.inl ⟨r₂, h₂, he, rfl⟩
    · intro r₂ h₂ he
      rcases List.mem_map.mp h₂ with ⟨r, hr, rfl⟩
      by_cases hc : r.rowId = mid
      · rw [finishById_eq_of_eq hc] at he
        simp [finishRow] at he
      · rw [finishById_eq_of_ne hc] at he ⊢
        exact Or.inl ⟨r, hr, he, rfl⟩
  | finishEntry t st e no =>
    rcases stepOp_finishEntry_cases s t st e no with h | h <;> rw [h]
    · intro r₂ h₂ he; exact Or.inl ⟨r₂, h₂, he, rfl⟩
    · intro r₂ h₂ he
      rcases List.mem_map.mp h₂ with ⟨r, hr, rfl⟩
      unfold finishByEntry at he ⊢
      by_cases hm : finishEntryMatch t st e r = true
      · rw [if_pos hm] at he
        simp [finishRow] at he
      · rw [if_neg hm] at he ⊢
        exact Or.inl ⟨r, hr, he, rfl⟩

theorem runOps_endsAfterStart (ops : List Op) (s : Store)
    (hWF : WF s) (hFin : endsAfterStart s)
    (hUnf : ∀ r ∈ s.rows, r.endT = none → ∀ o ∈ ops, r.start < o.time)
    (hPair : ops.Pairwise (fun a b => a.time < b.time)) :
    endsAfterStart (runOps s ops) := by
  induction ops generalizing s with
  | nil => exact hFin
  | cons o os ih =>
    rw [runOps]
    rcases List.pairwise_cons.mp hPair with ⟨hhead, htail⟩
    refine ih (stepOp s o) (WF_stepOp s o hWF)
      (endsAfterStart_stepOp s o hWF hFin
        (fun r hr he => hUnf r hr he o (List.mem_cons_self o os))) ?_ htail
    intro r₂ hr₂ he₂ o₂ ho₂
    rcases unfinished_stepOp s o r₂ hr₂ he₂ with ⟨r, hr, hre, hstart⟩ | hstart
    · rw [hstart]; exact hUnf r hr hre o₂ (List.mem_cons_of_mem o ho₂)
    · rw [hstart]; exact hhead o₂ ho₂

/-- Claim C2, amended: when the API calls are issued in chronological
order — each operation's wall-clock moment (`Op.time`) strictly greater
than every earlier one, which in particular rules out starting an entry
with a start time in the future — every finished row of every reachable
store satisfies `end > start`.  (`try_finish_entry` checks `start < end`
itself; `try_finish_title` / `try_finish_any` rely on this ordering.) -/
theorem chronological_runs_keep_end_after_start (ops : List Op)
    (hPair : ops.Pairwise (fun a b => a.time < b.time)) :
    endsAfterStart (runOps Store.empty ops) := by
  refine runOps_endsAfterStart ops Store.empty ⟨List.nodup_nil, ?_⟩ ?_ ?_ hPair
  · intro r hr; simp [Store.empty] at hr
  · intro r hr; simp [Store.empty] at hr
  · intro r hr; simp [Store.empty] at hr

/-- Witness for the amended C2 theorem at a concrete chronological run. -/
theorem chronological_runs_keep_end_after_start_example :
    endsAfterStart
      (runOps Store.empty
        [.start "A" 1 "", .finishTitle 2 "A" "", .start "B" 3 "", .finishAny 4 ""]) :=
  chronological_runs_keep_end_after_start _ (by decide)

theorem length_filter_le_one_of_key {α κ : Type} [DecidableEq κ] (key : α → κ)
    (k : κ) (p : α → Bool) (hk : ∀ a, p a = true → key a = k) :
    ∀ (l : List α), (l.map key).Nodup → (l.filter p).length ≤ 1 := by
  intro l
  induction l with
  | nil => intro _; simp
  | cons x xs ih =>
    intro hnd
    rw [List.map_cons, List.nodup_cons] at hnd
    by_cases hp : p x = true
    · rw [List.filter_cons_of_pos hp]
      have hempty : xs.filter p = [] := by
        rw [List.filter_eq_nil_iff]
        intro r hr hpr
        exact hnd.1 (by
          have : key r ∈ xs.map key := List.mem_map_of_mem key hr
          rwa [hk r hpr, ← hk x hp] at this)
      rw [hempty]
      simp
    · rw [List.filter_cons_of_neg hp]
      exact ih hnd.2

theorem filter_key_singleton {α κ : Type} [DecidableEq κ] (key : α → κ)
    (k : κ) (p : α → Bool) (hk : ∀ a, p a = true ↔ key a = k) :
    ∀ (l : List α) (a₀ : α), (l.map key).Nodup → a₀ ∈ l → key a₀ = k →
      l.filter p = [a₀] := by
  intro l
  induction l with
  | nil => intro a₀ _ ha₀; simp at ha₀
  | cons x xs ih =>
    intro a₀ hnd ha₀ hk₀
    rw [List.map_cons, List.nodup_cons] at hnd
    rcases List.mem_cons.mp ha₀ with rfl | hmem
    · rw [List.filter_cons_of_pos ((hk a₀).mpr hk₀)]
      have hempty : xs.filter p = [] := by
        rw [List.filter_eq_nil_iff]
        intro r hr hpr
        exact hnd.1 (by
          have : key r ∈ xs.map key := List.mem_map_of_mem key hr
          rwa [(hk r).mp hpr, ← hk₀] at this)
      rw [hempty]
    · have hx : p x = false := by
        rcases Bool.eq_false_or_eq_true (p x) with h | h
        · exact absurd (by rw [(hk x).mp h, ← hk₀]; exact List.mem_map_of_mem key hmem)
            hnd.1
        · exact h
      rw [List.filter_cons_of_neg (by simp [hx])]
      exact ih a₀ hnd.2 hmem hk₀

theorem finishEntryMatch_key {t : String} {st e : Nat} {r : Row}
    (h : finishEntryMatch t st e r = true) :
    r.title = t ∧ r.start = st ∧ r.endT = none ∧ st < e := by
  unfold finishEntryMatch at h
  simp only [Bool.and_eq_true, beq_iff_eq, Option.isNone_iff_eq_none,
    decide_eq_true_eq] at h
  obtain ⟨⟨⟨h₁, h₂⟩, h₃⟩, h₄⟩ := h
  exact ⟨h₁, h₂, h₃, h₂ ▸ h₄⟩

theorem tryFinishEntry_filter_nil {s : Store} {t : String} {st e : Nat}
    (no : String) (h : s.rows.filter (finishEntryMatch t st e) = []) :
    tryFinishEntry s t st e no = .ok (s, false) := by
  unfold tryFinishEntry
  rw [h]
  rfl

/-- After the `try_finish_entry` update ran, no row matches its `WHERE`
clause any more: matched rows are now finished, unmatched rows still
fail the clause. -/
theorem update_leaves_no_match (s : Store) (t : String) (st e : Nat) (no : String) :
    (s.rows.map (finishByEntry t st e no)).filter (finishEntryMatch t st e) = [] := by
  rw [List.filter_eq_nil_iff]
  intro r₂ hr₂
  rcases List.mem_map.mp hr₂ with ⟨r, hr, rfl⟩
  unfold finishByEntry
  by_cases hm : finishEntryMatch t st e r = true
  · rw [if_pos hm]
    simp [finishEntryMatch, finishRow]
  · rw [if_neg hm]
    simpa using hm

theorem tryFinishEntry_cases_nodup (s : Store) (t : String) (st e : Nat)
    (no : String) (hK : keysNodup s) :
    (s.rows.filter (finishEntryMatch t st e) = [] ∧
      tryFinishEntry s t st e no = .ok (s, false)) ∨
    (∃ r, s.rows.filter (finishEntryMatch t st e) = [r] ∧
      tryFinishEntry s t st e no =
        .ok (⟨s.rows.map (finishByEntry t st e no), s.nextId⟩, true)) := by
  have hle := length_filter_le_one_of_key (fun r : Row => (r.title, r.start)) (t, st)
    (finishEntryMatch t st e)
    (fun r hr => by
      rcases finishEntryMatch_key hr with ⟨h₁, h₂, -, -⟩
      simp [h₁, h₂]) s.rows hK
  cases hf : s.rows.filter (finishEntryMatch t st e) with
  | nil => exact Or.inl ⟨rfl, tryFinishEntry_filter_nil no hf⟩
  | cons r rest =>
    rw [hf] at hle
    simp only [List.length_cons] at hle
    have hrest : rest = [] := List.eq_nil_of_length_eq_zero (by omega)
    subst hrest
    refine Or.inr ⟨r, rfl, ?_⟩
    unfold tryFinishEntry
    rw [hf]
    rfl

/-- Claim C6: with distinct natural keys `(title, start)` (the data-model
invariant `start_entry` maintains), `try_finish_entry` never returns an
error; it updates a row only when the exact `(title, start)` row exists,
is unfinished, and `end > start`; when every such row is finished or
absent it returns `Ok(false)` with the store unchanged; and repeating the
call after any outcome returns `Ok(false)` without further change — at
most the first call changes the store. -/
theorem try_finish_entry_idempotent_safe (s : Store) (t : String) (st e : Nat)
    (no : String) (hK : keysNodup s) :
    (∃ p, tryFinishEntry s t st e no = .ok p) ∧
    ((∀ r ∈ s.rows, r.title = t ∧ r.start = st → r.endT ≠ none) →
      tryFinishEntry s t st e no = .ok (s, false)) ∧
    (∀ s₂, tryFinishEntry s t st e no = .ok (s₂, true) →
      ∃ r ∈ s.rows, r.title = t ∧ r.start = st ∧ r.endT = none ∧ st < e) ∧
    (∀ s₂ b, tryFinishEntry s t st e no = .ok (s₂, b) →
      tryFinishEntry s₂ t st e no = .ok (s₂, false)) := by
  refine ⟨?_, ?_, ?_, ?_⟩
  · rcases tryFinishEntry_cases_nodup s t st e no hK with ⟨-, h⟩ | ⟨r, -, h⟩
    · exact ⟨(s, false), h⟩
    · exact ⟨_, h⟩
  · intro hab
    apply tryFinishEntry_filter_nil
    rw [List.filter_eq_nil_iff]
    intro r hr hm
    rcases finishEntryMatch_key hm with ⟨h₁, h₂, h₃, -⟩
    exact hab r hr ⟨h₁, h₂⟩ h₃
  · intro s₂ hok
    rcases tryFinishEntry_cases_nodup s t st e no hK with ⟨-, h⟩ | ⟨r, hf, h⟩
    · rw [h] at hok
      simp at hok
    · have hrmem : r ∈ s.rows.filter (finishEntryMatch t st e) := by
        rw [hf]; exact List.mem_singleton_self r
      rcases List.mem_filter.mp hrmem with ⟨hmem, hm⟩
      rcases finishEntryMatch_key hm with ⟨h₁, h₂, h₃, h₄⟩
      exact ⟨r, hmem, h₁, h₂, h₃, h₄⟩
  · intro s₂ b hok
    rcases tryFinishEntry_cases_nodup s t st e no hK with ⟨-, h⟩ | ⟨r, hf, h⟩
    · rw [h] at hok
      rcases hok with ⟨rfl, rfl⟩
      exact h
    · rw [h] at hok
      simp only [Except.ok.injEq, Prod.mk.injEq] at hok
      rcases hok with ⟨rfl, -⟩
      exact tryFinishEntry_filter_nil no (update_leaves_no_match s t st e no)

/-- Witness for the C6 theorem on a concrete one-row store. -/
theorem try_finish_entry_idempotent_safe_example :
    keysNodup ⟨[⟨0, "A", 5, none, ""⟩], 1⟩ ∧
    ((∃ p, tryFinishEntry ⟨[⟨0, "A", 5, none, ""⟩], 1⟩ "A" 5 10 "" = .ok p) ∧
      ((∀ r ∈ (⟨[⟨0, "A", 5, none, ""⟩], 1⟩ : Store).rows,
          r.title = "A" ∧ r.start = 5 → r.endT ≠ none) →
        tryFinishEntry ⟨[⟨0, "A", 5, none, ""⟩], 1⟩ "A" 5 10 "" =
          .ok (⟨[⟨0, "A", 5, none, ""⟩], 1⟩, false)) ∧
      (∀ s₂, tryFinishEntry ⟨[⟨0, "A", 5, none, ""⟩], 1⟩ "A" 5 10 "" = .ok (s₂, true) →
        ∃ r ∈ (⟨[⟨0, "A", 5, none, ""⟩], 1⟩ : Store).rows,
          r.title = "A" ∧ r.start = 5 ∧ r.endT = none ∧ 5 < 10) ∧
      (∀ s₂ b, tryFinishEntry ⟨[⟨0, "A", 5, none, ""⟩], 1⟩ "A" 5 10 "" = .ok (s₂, b) →
        tryFinishEntry s₂ "A" 5 10 "" = .ok (s₂, false))) :=
  ⟨by unfold keysNodup; decide, try_finish_entry_idempotent_safe _ "A" 5 10 ""
    (by unfold keysNodup; decide)⟩

/-- Claim C4, counterexample: the spec says `try_finish_title` finishes
the unfinished entry of the title with the maximum *start* timestamp.
The SQL selects `max(id)` — the most recently inserted row.  Starting
`("T", start 100)` and then `("T", start 50)` (both calls succeed, since
only exact duplicates are rejected) and finishing title `"T"` at time 200
finishes the row with start 50, leaving the maximum-start row (100)
unfinished. -/
theorem try_finish_title_uses_max_id_not_max_start :
    runOps Store.empty [.start "T" 100 "", .start "T" 50 ""] =
      ⟨[⟨0, "T", 100, none, ""⟩, ⟨1, "T", 50, none, ""⟩], 2⟩ ∧
    tryFinishTitle ⟨[⟨0, "T", 100, none, ""⟩, ⟨1, "T", 50, none, ""⟩], 2⟩ 200 "T" "" =
      .ok (⟨[⟨0, "T", 100, none, ""⟩, ⟨1, "T", 50, some 200, ""⟩], 2⟩, true) :=
  ⟨by decide, rfl⟩

/-- Claim C4, amended: on any store with distinct primary keys holding at
least one unfinished entry of the given title, `try_finish_title`
succeeds and finishes exactly the unfinished matching row with the
maximum *row id* — the most recently inserted one — which coincides with
the most recently started only when insertion order follows start
order. -/
theorem try_finish_title_finishes_max_rowid (s : Store) (now : Nat) (t no : String)
    (hWF : WF s) (hex : ∃ r ∈ s.rows, r.title = t ∧ r.endT = none) :
    ∃ mid r₀, maxNat (unfinishedIdsOf s t) = some mid ∧
      r₀ ∈ s.rows ∧ r₀.rowId = mid ∧ r₀.title = t ∧ r₀.endT = none ∧
      (∀ r ∈ s.rows, r.title = t → r.endT = none → r.rowId ≤ mid) ∧
      tryFinishTitle s now t no =
        .ok (⟨s.rows.map (finishById mid now no), s.nextId⟩, true) := by
  rcases hex with ⟨r₁, hr₁, ht₁, he₁⟩
  have hid₁ : r₁.rowId ∈ unfinishedIdsOf s t := by
    apply List.mem_map_of_mem
    rw [List.mem_filter]
    exact ⟨hr₁, by simp [he₁, ht₁]⟩
  rcases Option.isSome_iff_exists.mp (maxNat_isSome hid₁) with ⟨mid, hmid⟩
  rcases mem_unfinishedIdsOf (maxNat_mem hmid) with ⟨r₀, hr₀, hid₀, hend₀, htitle₀⟩
  refine ⟨mid, r₀, hmid, hr₀, hid₀, htitle₀, hend₀, ?_, ?_⟩
  · intro r hr hrt hre
    apply maxNat_ge hmid
    apply List.mem_map_of_mem
    rw [List.mem_filter]
    exact ⟨hr, by simp [hre, hrt]⟩
  · have hsingle : s.rows.filter (fun r => r.rowId == mid) = [r₀] :=
      filter_key_singleton (fun r : Row => r.rowId) mid _
        (fun a => by simp) s.rows r₀ hWF.1 hr₀ hid₀
    unfold tryFinishTitle
    rw [hmid]
    show (match (s.rows.filter (fun r => r.rowId == mid)).length with
      | 0 => Except.ok (s, false)
      | 1 => Except.ok (⟨s.rows.map (finishById mid now no), s.nextId⟩, true)
      | _ => Except.error (Err.impossibleState "more than one row updated")) =
        Except.ok (⟨s.rows.map (finishById mid now no), s.nextId⟩, true)
    rw [hsingle]
    rfl

/-- Witness for the amended C4 theorem on the two-row store of the
counterexample. -/
theorem try_finish_title_finishes_max_rowid_example :
    WF ⟨[⟨0, "T", 100, none, ""⟩, ⟨1, "T", 50, none, ""⟩], 2⟩ ∧
    (∃ mid r₀,
      maxNat (unfinishedIdsOf ⟨[⟨0, "T", 100, none, ""⟩, ⟨1, "T", 50, none, ""⟩], 2⟩ "T") =
        some mid ∧
      r₀ ∈ (⟨[⟨0, "T", 100, none, ""⟩, ⟨1, "T", 50, none, ""⟩], 2⟩ : Store).rows ∧
      r₀.rowId = mid ∧ r₀.title = "T" ∧ r₀.endT = none ∧
      (∀ r ∈ (⟨[⟨0, "T", 100, none, ""⟩, ⟨1, "T", 50, none, ""⟩], 2⟩ : Store).rows,
        r.title = "T" → r.endT = none → r.rowId ≤ mid) ∧
      tryFinishTitle ⟨[⟨0, "T", 100, none, ""⟩, ⟨1, "T", 50, none, ""⟩], 2⟩ 200 "T" "" =
        .ok (⟨((⟨[⟨0, "T", 100, none, ""⟩, ⟨1, "T", 50, none, ""⟩], 2⟩ : Store)).rows.map
          (finishById mid 200 ""), 2⟩, true)) :=
  ⟨⟨by decide, by decide⟩,
    try_finish_title_finishes_max_rowid _ 200 "T" "" ⟨by decide, by decide⟩
      ⟨⟨1, "T", 50, none, ""⟩, by decide, rfl, rfl⟩⟩

theorem finishedMatch_iff {qs qe : Nat} {r : Row} :
    finishedMatch qs qe r = true ↔
      qs ≤ r.start ∧ ∃ e, r.endT = some e ∧ e ≤ qe := by
  unfold finishedMatch
  cases he : r.endT with
  | none => simp [he]
  | some e => simp [he]

/-- Claim C5: `finished` returns exactly the rows with `start >= qs` and
non-null `end <= qe` (with `qe` defaulting to the current time when
absent) — a permutation of that filter — sorted ascending by `start`, and
never containing a row whose `end` is null. -/
theorem finished_query_exact (s : Store) (qs : Nat) (qe : Option Nat) (now : Nat) :
    (finishedQuery s qs qe now).Perm
      (s.rows.filter (finishedMatch qs (qe.getD now))) ∧
    List.Sorted rowLe (finishedQuery s qs qe now) ∧
    (∀ r, r ∈ finishedQuery s qs qe now ↔
      r ∈ s.rows ∧ qs ≤ r.start ∧ ∃ e, r.endT = some e ∧ e ≤ qe.getD now) ∧
    (∀ r ∈ finishedQuery s qs qe now, r.endT ≠ none) := by
  have hperm := List.perm_insertionSort rowLe (s.rows.filter (finishedMatch qs (qe.getD now)))
  have hmem : ∀ r : Row, r ∈ finishedQuery s qs qe now ↔
      r ∈ s.rows ∧ qs ≤ r.start ∧ ∃ e, r.endT = some e ∧ e ≤ qe.getD now := by
    intro r
    unfold finishedQuery
    rw [hperm.mem_iff, List.mem_filter, finishedMatch_iff]
  refine ⟨hperm, List.sorted_insertionSort rowLe _, hmem, ?_⟩
  intro r hr
  rcases (hmem r).mp hr with ⟨-, -, e, he, -⟩
  rw [he]
  exact Option.some_ne_none e

/-- Finished entry handed to the report views (`views.rs`), after the
conversion to local time: times are minutes on a linear local-time scale,
and the local calendar date of a time is its day number `t / 1440`. -/
structure VItem where
  title : String
  start : Nat
  endT : Nat
deriving DecidableEq, Repr

/-- Local calendar date (`with_timezone(&Local).date_naive()`). -/
def dateOf (t : Nat) : Nat := t / 1440

/-- Model of `EffortWithTitle`: a span plus its title. -/
structure VEffort where
  start : Nat
  endT : Nat
  title : String
deriving DecidableEq, Repr

/-- Ordering of `EffortWithTitle` (src/views.rs:235-245): by span start
only. -/
def effortLe (a b : VEffort) : Prop := a.start ≤ b.start

instance : DecidableRel effortLe := fun a b => Nat.decLe a.start b.start

instance : IsTotal VEffort effortLe := ⟨fun a b => Nat.le_total a.start b.start⟩

instance : IsTrans VEffort effortLe := ⟨fun _ _ _ => Nat.le_trans⟩

/-- Label of synthesized gaps (`let idle_title = "<idle>"`). -/
def idleTitle : String := "<idle>"

/-- Configured working-window bounds: `NaiveTime::from_hms_opt(8, 0, 0)`
and `(21, 0, 0)` as minutes of the day. -/
def windowStartMin : Nat := 8 * 60

def windowEndMin : Nat := 21 * 60

/-- Keys of the `BTreeMap<NaiveDate, Vec<EffortWithTitle>>` grouping of
`DailyDistributionView::new`: the distinct start dates of the input, in
ascending key order (the order a `BTreeMap` iterates in). -/
def dayKeys (items : List VItem) : List Nat :=
  List.insertionSort (· ≤ ·) ((items.map (fun i => dateOf i.start)).dedup)

/-- Per-day bucket contents, in input (push) order. -/
def effortsOfDay (items : List VItem) (d : Nat) : List VEffort :=
  (items.filter (fun i => dateOf i.start == d)).map (fun i => ⟨i.start, i.endT, i.title⟩)

/-- Idle-gap insertion loop of `DailyDistributionView::new`
(src/views.rs:285-311) over the sorted per-day spans, starting from the
cursor `current_dt = date.and_time(day_start_time)`; the cursor update
`current_dt = eff.0.end` sits inside the `if current_dt < eff.0.start`
branch, exactly as in the source.  After the loop a trailing idle span is
pushed if the cursor is still before the window end. -/
def insertIdles (dayEnd : Nat) : Nat → List VEffort → List VEffort
  | cur, [] => if cur < dayEnd then [⟨cur, dayEnd, idleTitle⟩] else []
  | cur, e :: rest =>
    if cur < e.start then
      ⟨cur, e.start, idleTitle⟩ :: e :: insertIdles dayEnd e.endT rest
    else
      e :: insertIdles dayEnd cur rest

/-- Model of `DailyDistributionView::new` (src/views.rs:250-318): group
spans by local start date, sort each day by start (`efforts.sort()`, a
stable sort on the start time), and interleave idle spans against the
working window of that day. -/
def dailyDistribution (items : List VItem) : List (Nat × List VEffort) :=
  (dayKeys items).map (fun d =>
    (d, insertIdles (d * 1440 + windowEndMin) (d * 1440 + windowStartMin)
      (List.insertionSort effortLe (effortsOfDay items d))))

/-- Span of the `Effort` struct inside `ItemDetailView` groups. -/
structure VSpan where
  start : Nat
  endT : Nat
deriving DecidableEq, Repr

/-- Model of `ItemEfforts`: one title with its spans. -/
structure ItemEfforts where
  key : String
  efforts : List VSpan
deriving DecidableEq, Repr

/-- Distinct titles of the input entries. -/
def titlesOf (items : List VItem) : List String := (items.map (·.title)).dedup

/-- Model of `ItemDetailView::new` (src/views.rs:117-140): entries are
grouped by title in a `HashMap<String, ItemEfforts>` (each group's spans
in input order) and the groups are emitted by `into_values()`.  That
emission order is the hash map's iteration order — unspecified, and
dependent on the per-instance `RandomState` — so the embedding takes it
as the explicit parameter `keyOrder`, ranging over the permutations of
the distinct titles.  The view reads nothing but its input slice. -/
def itemDetailView (keyOrder : List String) (items : List VItem) : List ItemEfforts :=
  keyOrder.map (fun t =>
    ⟨t, (items.filter (fun i => i.title == t)).map (fun i => ⟨i.start, i.endT⟩)⟩)

/-- Claim C3: the spec scenario — entries `A(08:00-09:00)` and
`B(10:00-10:30)` on one day, window `08:00-21:00` — should yield
`A, idle(09:00-10:00), B, idle(10:30-21:00)`.  Because the cursor update
sits inside the `if`, span `A` (which starts exactly at the window start
and therefore emits no idle span) never advances the cursor, so the code
emits `idle(08:00-10:00)`, overlapping `A`, instead of
`idle(09:00-10:00)`.  Minutes: 08:00 = 480, 09:00 = 540, 10:00 = 600,
10:30 = 630, 21:00 = 1260. -/
theorem daily_distribution_cursor_not_advanced :
    dailyDistribution [⟨"A", 480, 540⟩, ⟨"B", 600, 630⟩] =
      [(0, [⟨480, 540, "A"⟩, ⟨480, 600, idleTitle⟩,
            ⟨600, 630, "B"⟩, ⟨630, 1260, idleTitle⟩])] ∧
    dailyDistribution [⟨"A", 480, 540⟩, ⟨"B", 600, 630⟩] ≠
      [(0, [⟨480, 540, "A"⟩, ⟨540, 600, idleTitle⟩,
            ⟨600, 630, "B"⟩, ⟨630, 1260, idleTitle⟩])] := by
  exact ⟨by decide, by decide⟩

/-- Claim C7, counterexample: a date with zero real spans gets no idle
span at all — it is simply absent from the view, because the
`BTreeMap` is keyed by the dates occurring in the input.  With an empty
input slice the view is empty and day 0 has no full-window idle span. -/
theorem daily_distribution_empty_day_absent :
    dailyDistribution [] = [] ∧
    (dailyDistribution []).lookup 0 ≠
      some [⟨windowStartMin, windowEndMin, idleTitle⟩] := by
  exact ⟨rfl, by decide⟩

theorem lookup_map_pair_eq_none {β : Type} (f : Nat → β) (l : List Nat) (d : Nat)
    (hd : d ∉ l) : (l.map (fun x => (x, f x))).lookup d = none := by
  induction l with
  | nil => rfl
  | cons x xs ih =>
    rw [List.mem_cons, not_or] at hd
    have hne : (d == x) = false := beq_false_of_ne hd.1
    simp only [List.map_cons, List.lookup_cons, hne]
    exact ih hd.2

theorem mem_dayKeys {items : List VItem} {d : Nat} :
    d ∈ dayKeys items ↔ ∃ i ∈ items, dateOf i.start = d := by
  unfold dayKeys
  rw [(List.perm_insertionSort _ _).mem_iff, List.mem_dedup, List.mem_map]

/-- Claim C7, amended: a calendar date on which no input span starts does
not appear in the Daily Distribution view at all; only dates carrying at
least one real span get an entry (and with it any idle spans). -/
theorem daily_distribution_skips_empty_days (items : List VItem) (d : Nat)
    (h : ∀ i ∈ items, dateOf i.start ≠ d) :
    (dailyDistribution items).lookup d = none := by
  unfold dailyDistribution
  apply lookup_map_pair_eq_none
  rw [mem_dayKeys]
  rintro ⟨i, hi, hdi⟩
  exact h i hi hdi

/-- Witness for the amended C7 theorem: one span on day 0, day 5 absent. -/
theorem daily_distribution_skips_empty_days_example :
    (∀ i ∈ [(⟨"A", 480, 540⟩ : VItem)], dateOf i.start ≠ 5) ∧
    (dailyDistribution [⟨"A", 480, 540⟩]).lookup 5 = none :=
  ⟨by decide, daily_distribution_skips_empty_days _ 5 (by decide)⟩

/-- Claim C8, counterexample: the spec claims every view is deterministic
over equal inputs *including the order in which title groups appear*.
`ItemDetailView` emits its groups in `HashMap` iteration order, which
varies with the per-instance hasher: both `["a", "b"]` and `["b", "a"]`
are possible emission orders of the two distinct titles, and they yield
different views (and hence different renderings). -/
theorem item_detail_view_group_order_varies :
    (["a", "b"].Perm (titlesOf [⟨"a", 0, 1⟩, ⟨"b", 2, 3⟩]) ∧
     ["b", "a"].Perm (titlesOf [⟨"a", 0, 1⟩, ⟨"b", 2, 3⟩])) ∧
    itemDetailView ["a", "b"] [⟨"a", 0, 1⟩, ⟨"b", 2, 3⟩] ≠
      itemDetailView ["b", "a"] [⟨"a", 0, 1⟩, ⟨"b", 2, 3⟩] := by
  exact ⟨⟨by decide, by decide⟩, by decide⟩

/-- Claim C8, amended: every view is a pure function of its input slice
(none touches the store), and `ItemDetailView` is deterministic up to the
order of its title groups: any two constructions over equal inputs —
whatever iteration orders their hash maps produce — yield the same
multiset of title groups, each group identical including its effort
order. -/
theorem item_detail_view_deterministic_up_to_order (items : List VItem)
    (o₁ o₂ : List String) (h₁ : o₁.Perm (titlesOf items))
    (h₂ : o₂.Perm (titlesOf items)) :
    (itemDetailView o₁ items).Perm (itemDetailView o₂ items) :=
  (h₁.trans h₂.symm).map _

/-- Witness for the amended C8 theorem at the counterexample input. -/
theorem item_detail_view_deterministic_up_to_order_example :
    ["a", "b"].Perm (titlesOf [⟨"a", 0, 1⟩, ⟨"b", 2, 3⟩]) ∧
    ["b", "a"].Perm (titlesOf [⟨"a", 0, 1⟩, ⟨"b", 2, 3⟩]) ∧
    (itemDetailView ["a", "b"] [⟨"a", 0, 1⟩, ⟨"b", 2, 3⟩]).Perm
      (itemDetailView ["b", "a"] [⟨"a", 0, 1⟩, ⟨"b", 2, 3⟩]) :=
  ⟨by decide, by decide,
    item_detail_view_deterministic_up_to_order _ _ _ (by decide) (by decide)⟩

/-- UTC instant as chrono represents it: Gregorian calendar fields plus
nanoseconds.  `Valid` bounds the fields to the ranges chrono prints with
fixed-width zero padding (`%Y` pads years 1-9999 to four digits), which
covers every timestamp `Utc::now()` and hence the store ever writes. -/
structure UtcTime where
  year : Nat
  month : Nat
  day : Nat
  hour : Nat
  minute : Nat
  second : Nat
  nano : Nat
deriving DecidableEq, Repr

/-- Field bounds as an executable check. -/
def UtcTime.validB (t : UtcTime) : Bool :=
  decide (1 ≤ t.year) && decide (t.year ≤ 9999) &&
  decide (1 ≤ t.month) && decide (t.month ≤ 12) &&
  decide (1 ≤ t.day) && decide (t.day ≤ 31) &&
  decide (t.hour ≤ 23) && decide (t.minute ≤ 59) && decide (t.second ≤ 59) &&
  decide (t.nano < 1000000000)

/-- A calendar-plausible timestamp in chrono's four-digit-year range. -/
def UtcTime.Valid (t : UtcTime) : Prop := t.validB = true

/-- The instant on a single numeric axis; two valid timestamps compare
chronologically exactly as their keys compare. -/
def UtcTime.key (t : UtcTime) : Nat :=
  (((((t.year * 100 + t.month) * 100 + t.day) * 100 + t.hour) * 100 +
    t.minute) * 100 + t.second) * 1000000000 + t.nano

/-- Chronological strict order on instants. -/
def chronoLt (t₁ t₂ : UtcTime) : Prop := t₁.key < t₂.key

/-- Decimal digit character (`'0'` has code 48). -/
def digitChar (d : Nat) : Char := Char.ofNat (48 + d)

/-- Fixed-width zero-padded decimal print of `n`, most significant digit
first (the `%Y`/`%m`/... fields of chrono's formatter). -/
def digitsOf : Nat → Nat → List Char
  | 0, _ => []
  | w + 1, n => digitChar (n / 10 ^ w) :: digitsOf w (n % 10 ^ w)

/-- Fractional-second part of chrono's `to_rfc3339` (`Fixed::Nanosecond`,
"auto SI"): empty when zero, otherwise a dot and 3, 6 or 9 digits
depending on divisibility by 10^6 / 10^3. -/
def fracChars (nano : Nat) : List Char :=
  if nano = 0 then []
  else if nano % 1000000 = 0 then '.' :: digitsOf 3 (nano / 1000000)
  else if nano % 1000 = 0 then '.' :: digitsOf 6 (nano / 1000)
  else '.' :: digitsOf 9 nano

/-- Offset suffix `to_rfc3339` writes for `DateTime<Utc>` (`%:z` of the
zero offset). -/
def zoneChars : List Char := ['+', '0', '0', ':', '0', '0']

/-- Character sequence of `to_rfc3339`:
`YYYY-MM-DDTHH:MM:SS[.fff[fff[fff]]]+00:00`. -/
def rfcChars (t : UtcTime) : List Char :=
  digitsOf 4 t.year ++ '-' :: (digitsOf 2 t.month ++ '-' :: (digitsOf 2 t.day ++
    'T' :: (digitsOf 2 t.hour ++ ':' :: (digitsOf 2 t.minute ++
      ':' :: (digitsOf 2 t.second ++ (fracChars t.nano ++ zoneChars))))))

/-- Model of `DateTime::to_rfc3339` on a UTC instant. -/
def toRfc3339 (t : UtcTime) : String := ⟨rfcChars t⟩

/-- Numeric value of one ASCII digit. -/
def digitVal (c : Char) : Option Nat :=
  if 48 ≤ c.toNat && c.toNat ≤ 57 then some (c.toNat - 48) else none

/-- Read exactly `w` digits into an accumulator. -/
def readNatW : Nat → Nat → List Char → Option (Nat × List Char)
  | 0, acc, cs => some (acc, cs)
  | _ + 1, _, [] => none
  | w + 1, acc, c :: cs =>
    match digitVal c with
    | some d => readNatW w (acc * 10 + d) cs
    | none => none

/-- Expect one literal character. -/
def expectChar (c : Char) : List Char → Option (List Char)
  | [] => none
  | x :: xs => if x = c then some xs else none

/-- Greedily read digits. -/
def takeDigits : List Char → List Nat × List Char
  | [] => ([], [])
  | c :: cs =>
    match digitVal c with
    | some d => (d :: (takeDigits cs).1, (takeDigits cs).2)
    | none => ([], c :: cs)

/-- Value of a digit list, most significant first. -/
def digitsVal (ds : List Nat) : Nat := ds.foldl (fun a d => a * 10 + d) 0

/-- Optional fractional seconds: a dot followed by 1 to 9 digits, scaled
to nanoseconds; absent means zero. -/
def readFrac (cs : List Char) : Option (Nat × List Char) :=
  match cs with
  | '.' :: rest =>
    if (takeDigits rest).1.length = 0 then none
    else if (takeDigits rest).1.length ≤ 9 then
      some (digitsVal (takeDigits rest).1 * 10 ^ (9 - (takeDigits rest).1.length),
        (takeDigits rest).2)
    else none
  | _ => some (0, cs)

/-- Accepted zero-offset suffixes.  The store only ever feeds
`parse_from_rfc3339` text it wrote itself with offset `+00:00`, so the
model covers the zero offset (plus `Z`); nonzero offsets would need
calendar arithmetic the claims never exercise. -/
def readZone : List Char → Bool
  | ['Z'] => true
  | ['+', '0', '0', ':', '0', '0'] => true
  | _ => false

/-- Model of `DateTime::parse_from_rfc3339` composed with
`.with_timezone(&Utc)` on zero-offset text: fixed-width numeric fields
with the RFC 3339 separators, optional fractional seconds, field-range
validation. -/
def parseChars (cs : List Char) : Option UtcTime := do
  let (y, cs) ← readNatW 4 0 cs
  let cs ← expectChar '-' cs
  let (mo, cs) ← readNatW 2 0 cs
  let cs ← expectChar '-' cs
  let (d, cs) ← readNatW 2 0 cs
  let cs ← expectChar 'T' cs
  let (h, cs) ← readNatW 2 0 cs
  let cs ← expectChar ':' cs
  let (mi, cs) ← readNatW 2 0 cs
  let cs ← expectChar ':' cs
  let (sec, cs) ← readNatW 2 0 cs
  let (na, cs) ← readFrac cs
  if readZone cs then
    let t : UtcTime := ⟨y, mo, d, h, mi, sec, na⟩
    if t.validB then some t else none
  else
    none

/-- String-level parser entry point. -/
def parseRfc3339 (s : String) : Option UtcTime := parseChars s.data

theorem UtcTime.valid_bounds {t : UtcTime} (h : t.Valid) :
    1 ≤ t.year ∧ t.year ≤ 9999 ∧ 1 ≤ t.month ∧ t.month ≤ 12 ∧
    1 ≤ t.day ∧ t.day ≤ 31 ∧ t.hour ≤ 23 ∧ t.minute ≤ 59 ∧
    t.second ≤ 59 ∧ t.nano < 1000000000 := by
  unfold UtcTime.Valid UtcTime.validB at h
  simp only [Bool.and_eq_true, decide_eq_true_eq] at h
  omega

theorem digitChar_toNat {d : Nat} (h : d ≤ 9) : (digitChar d).toNat = 48 + d := by
  interval_cases d <;> decide

theorem digitVal_digitChar {d : Nat} (h : d ≤ 9) : digitVal (digitChar d) = some d := by
  interval_cases d <;> decide

theorem digitsOf_length (w : Nat) : ∀ n, (digitsOf w n).length = w := by
  induction w with
  | zero => intro n; rfl
  | succ w ih => intro n; simp [digitsOf, ih]

theorem readNatW_digitsOf (w : Nat) : ∀ (n acc : Nat), n < 10 ^ w →
    ∀ rest, readNatW w acc (digitsOf w n ++ rest) = some (acc * 10 ^ w + n, rest) := by
  induction w with
  | zero =>
    intro n acc hn rest
    interval_cases n
    simp [digitsOf, readNatW]
  | succ w ih =>
    intro n acc hn rest
    have hp : 0 < 10 ^ w := pow_pos (by norm_num) w
    have hd : n / 10 ^ w ≤ 9 := by
      have : n / 10 ^ w < 10 := by
        rw [Nat.div_lt_iff_lt_mul hp]
        calc n < 10 ^ (w + 1) := hn
          _ = 10 * 10 ^ w := by ring
      omega
    show readNatW (w + 1) acc (digitChar (n / 10 ^ w) :: (digitsOf w (n % 10 ^ w) ++ rest)) =
      some (acc * 10 ^ (w + 1) + n, rest)
    rw [readNatW, digitVal_digitChar hd]
    show readNatW w (acc * 10 + n / 10 ^ w) (digitsOf w (n % 10 ^ w) ++ rest) =
      some (acc * 10 ^ (w + 1) + n, rest)
    rw [ih (n % 10 ^ w) (acc * 10 + n / 10 ^ w) (Nat.mod_lt n hp) rest]
    have hqr : 10 ^ w * (n / 10 ^ w) + n % 10 ^ w = n := Nat.div_add_mod n (10 ^ w)
    congr 2
    calc (acc * 10 + n / 10 ^ w) * 10 ^ w + n % 10 ^ w
        = acc * (10 ^ w * 10) + (10 ^ w * (n / 10 ^ w) + n % 10 ^ w) := by ring
      _ = acc * 10 ^ (w + 1) + n := by rw [hqr, pow_succ]

/-- Digit list of `n` as numbers, mirroring `digitsOf`. -/
def natDigits : Nat → Nat → List Nat
  | 0, _ => []
  | w + 1, n => n / 10 ^ w :: natDigits w (n % 10 ^ w)

theorem natDigits_length (w : Nat) : ∀ n, (natDigits w n).length = w := by
  induction w with
  | zero => intro n; rfl
  | succ w ih => intro n; simp [natDigits, ih]

theorem foldl_natDigits (w : Nat) : ∀ n acc, n < 10 ^ w →
    List.foldl (fun a d => a * 10 + d) acc (natDigits w n) = acc * 10 ^ w + n := by
  induction w with
  | zero =>
    intro n acc hn
    interval_cases n
    simp [natDigits]
  | succ w ih =>
    intro n acc hn
    have hp : 0 < 10 ^ w := pow_pos (by norm_num) w
    show List.foldl (fun a d => a * 10 + d) (acc * 10 + n / 10 ^ w)
        (natDigits w (n % 10 ^ w)) = acc * 10 ^ (w + 1) + n
    rw [ih (n % 10 ^ w) (acc * 10 + n / 10 ^ w) (Nat.mod_lt n hp)]
    have hqr : 10 ^ w * (n / 10 ^ w) + n % 10 ^ w = n := Nat.div_add_mod n (10 ^ w)
    calc (acc * 10 + n / 10 ^ w) * 10 ^ w + n % 10 ^ w
        = acc * (10 ^ w * 10) + (10 ^ w * (n / 10 ^ w) + n % 10 ^ w) := by ring
      _ = acc * 10 ^ (w + 1) + n := by rw [hqr, pow_succ]

theorem digitsVal_natDigits {w n : Nat} (hn : n < 10 ^ w) :
    digitsVal (natDigits w n) = n := by
  unfold digitsVal
  rw [foldl_natDigits w n 0 hn]
  ring

/-- The characters following the printed digits, in all our uses, start
with a non-digit. -/
def noDigitHead : List Char → Prop
  | [] => True
  | c :: _ => digitVal c = none

theorem takeDigits_digitsOf (w : Nat) : ∀ n rest, n < 10 ^ w → noDigitHead rest →
    takeDigits (digitsOf w n ++ rest) = (natDigits w n, rest) := by
  induction w with
  | zero =>
    intro n rest hn hrest
    interval_cases n
    show takeDigits rest = ([], rest)
    cases rest with
    | nil => rfl
    | cons c cs =>
      have hc : digitVal c = none := hrest
      simp [takeDigits, hc]
  | succ w ih =>
    intro n rest hn hrest
    have hp : 0 < 10 ^ w := pow_pos (by norm_num) w
    have hd : n / 10 ^ w ≤ 9 := by
      have : n / 10 ^ w < 10 := by
        rw [Nat.div_lt_iff_lt_mul hp]
        calc n < 10 ^ (w + 1) := hn
          _ = 10 * 10 ^ w := by ring
      omega
    show takeDigits (digitChar (n / 10 ^ w) :: (digitsOf w (n % 10 ^ w) ++ rest)) =
      (n / 10 ^ w :: natDigits w (n % 10 ^ w), rest)
    rw [takeDigits, digitVal_digitChar hd]
    rw [ih (n % 10 ^ w) rest (Nat.mod_lt n hp) hrest]

theorem expectChar_cons_self (c : Char) (rest : List Char) :
    expectChar c (c :: rest) = some rest := by
  simp [expectChar]

theorem readFrac_dot (ds : List Char) :
    readFrac ('.' :: ds) =
      (if (takeDigits ds).1.length = 0 then none
       else if (takeDigits ds).1.length ≤ 9 then
         some (digitsVal (takeDigits ds).1 * 10 ^ (9 - (takeDigits ds).1.length),
           (takeDigits ds).2)
       else none) := rfl

theorem readFrac_fracChars (n : Nat) (hn : n < 1000000000) (rest : List Char) :
    readFrac (fracChars n ++ '+' :: rest) = some (n, '+' :: rest) := by
  have hplus : noDigitHead ('+' :: rest) := by
    show digitVal '+' = none
    decide
  unfold fracChars
  by_cases h0 : n = 0
  · subst h0
    rw [if_pos rfl]
    rfl
  · rw [if_neg h0]
    by_cases h6 : n % 1000000 = 0
    · rw [if_pos h6]
      have hv : n / 1000000 < 10 ^ 3 := by omega
      show readFrac ('.' :: (digitsOf 3 (n / 1000000) ++ '+' :: rest)) = some (n, '+' :: rest)
      rw [readFrac_dot, takeDigits_digitsOf 3 (n / 1000000) ('+' :: rest) hv hplus]
      rw [natDigits_length]
      simp only [if_neg (by norm_num : ¬(3 : Nat) = 0), if_pos (by norm_num : (3 : Nat) ≤ 9)]
      rw [digitsVal_natDigits hv]
      have : n / 1000000 * 10 ^ (9 - 3) = n := by
        have hdvd : 1000000 ∣ n := Nat.dvd_of_mod_eq_zero h6
        calc n / 1000000 * 10 ^ (9 - 3) = n / 1000000 * 1000000 := by norm_num
          _ = n := Nat.div_mul_cancel hdvd
      rw [this]
    · rw [if_neg h6]
      by_cases h3 : n % 1000 = 0
      · rw [if_pos h3]
        have hv : n / 1000 < 10 ^ 6 := by omega
        show readFrac ('.' :: (digitsOf 6 (n / 1000) ++ '+' :: rest)) = some (n, '+' :: rest)
        rw [readFrac_dot, takeDigits_digitsOf 6 (n / 1000) ('+' :: rest) hv hplus]
        rw [natDigits_length]
        simp only [if_neg (by norm_num : ¬(6 : Nat) = 0), if_pos (by norm_num : (6 : Nat) ≤ 9)]
        rw [digitsVal_natDigits hv]
        have : n / 1000 * 10 ^ (9 - 6) = n := by
          have hdvd : 1000 ∣ n := Nat.dvd_of_mod_eq_zero h3
          calc n / 1000 * 10 ^ (9 - 6) = n / 1000 * 1000 := by norm_num
            _ = n := Nat.div_mul_cancel hdvd
        rw [this]
      · rw [if_neg h3]
        have hv : n < 10 ^ 9 := by omega
        show readFrac ('.' :: (digitsOf 9 n ++ '+' :: rest)) = some (n, '+' :: rest)
        rw [readFrac_dot, takeDigits_digitsOf 9 n ('+' :: rest) hv hplus]
        rw [natDigits_length]
        simp only [if_neg (by norm_num : ¬(9 : Nat) = 0), if_pos (by norm_num : (9 : Nat) ≤ 9)]
        rw [digitsVal_natDigits hv]
        have : n * 10 ^ (9 - 9) = n := by norm_num
        rw [this]

/-- Round trip at the character level: parsing what `to_rfc3339` printed
recovers the instant. -/
theorem parseChars_rfcChars (t : UtcTime) (h : t.Valid) :
    parseChars (rfcChars t) = some t := by
  obtain ⟨hy₁, hy₂, hmo₁, hmo₂, hd₁, hd₂, hh, hmi, hs, hna⟩ := t.valid_bounds h
  have e₁ := readNatW_digitsOf 4 t.year 0 (by omega)
  have e₂ := readNatW_digitsOf 2 t.month 0 (by omega)
  have e₃ := readNatW_digitsOf 2 t.day 0 (by omega)
  have e₄ := readNatW_digitsOf 2 t.hour 0 (by omega)
  have e₅ := readNatW_digitsOf 2 t.minute 0 (by omega)
  have e₆ := readNatW_digitsOf 2 t.second 0 (by omega)
  have e₇ := readFrac_fracChars t.nano (by omega)
  have hz : readZone zoneChars = true := rfl
  unfold rfcChars parseChars
  rw [show fracChars t.nano ++ zoneChars = fracChars t.nano ++ '+' :: ['0', '0', ':', '0', '0']
    from rfl]
  simp only [e₁, e₂, e₃, e₄, e₅, e₆, e₇, expectChar_cons_self, Option.bind_eq_bind,
    Option.some_bind, Nat.zero_mul, Nat.zero_add]
  show (if readZone ['+', '0', '0', ':', '0', '0'] = true then
      if (⟨t.year, t.month, t.day, t.hour, t.minute, t.second, t.nano⟩ : UtcTime).validB = true
      then some ⟨t.year, t.month, t.day, t.hour, t.minute, t.second, t.nano⟩ else none
    else none) = some t
  have hz₂ : readZone ['+', '0', '0', ':', '0', '0'] = true := rfl
  rw [if_pos hz₂]
  have hvb : (⟨t.year, t.month, t.day, t.hour, t.minute, t.second, t.nano⟩ :
      UtcTime).validB = true := h
  rw [if_pos hvb]

theorem char_lt_of_toNat_lt {a b : Char} (h : a.toNat < b.toNat) : a < b := h

theorem digitChar_lt {d₁ d₂ : Nat} (h₂ : d₂ ≤ 9) (h : d₁ < d₂) :
    digitChar d₁ < digitChar d₂ := by
  apply char_lt_of_toNat_lt
  rw [digitChar_toNat (by omega), digitChar_toNat h₂]
  omega

theorem plus_lt_digitChar {d : Nat} (hd : d ≤ 9) : '+' < digitChar d := by
  apply char_lt_of_toNat_lt
  rw [digitChar_toNat hd]
  have he : ('+').toNat = 43 := rfl
  omega

theorem plus_lt_dot : ('+' : Char) < '.' := by decide

theorem lex_append_left (w : List Char) {u v : List Char} (h : u < v) :
    (w ++ u) < (w ++ v) := by
  induction w with
  | nil => exact h
  | cons c cs ih => exact List.Lex.cons ih

theorem lex_append_of_lt {u v : List Char} (h : List.Lex (· < ·) u v) :
    u.length = v.length → ∀ (a b : List Char), (u ++ a) < (v ++ b) := by
  induction h with
  | nil => intro hlen; simp at hlen
  | cons h ih => intro hlen a b; exact List.Lex.cons (ih (by simpa using hlen) a b)
  | rel hr => intro _ a b; exact List.Lex.rel hr

theorem digitsOf_lt : ∀ (w : Nat) {n m : Nat}, n < m → m < 10 ^ w →
    List.Lex (· < ·) (digitsOf w n) (digitsOf w m) := by
  intro w
  induction w with
  | zero => intro n m h hm; exact absurd hm (by omega)
  | succ w ih =>
    intro n m h hm
    have hp : 0 < 10 ^ w := pow_pos (by norm_num) w
    have hm' : m / 10 ^ w ≤ 9 := by
      have : m / 10 ^ w < 10 := by
        rw [Nat.div_lt_iff_lt_mul hp]
        calc m < 10 ^ (w + 1) := hm
          _ = 10 * 10 ^ w := by ring
      omega
    show List.Lex (· < ·) (digitChar (n / 10 ^ w) :: digitsOf w (n % 10 ^ w))
      (digitChar (m / 10 ^ w) :: digitsOf w (m % 10 ^ w))
    rcases Nat.lt_or_ge (n / 10 ^ w) (m / 10 ^ w) with hq | hq
    · exact List.Lex.rel (digitChar_lt hm' hq)
    · have hqe : n / 10 ^ w = m / 10 ^ w :=
        Nat.le_antisymm (Nat.div_le_div_right (Nat.le_of_lt h)) hq
      have e₁ := Nat.div_add_mod n (10 ^ w)
      have e₂ := Nat.div_add_mod m (10 ^ w)
      rw [hqe] at e₁
      have hr : n % 10 ^ w < m % 10 ^ w := by
        generalize hP : 10 ^ w * (m / 10 ^ w) = P at e₁ e₂
        omega
      rw [hqe]
      exact List.Lex.cons (ih hr (Nat.mod_lt m hp))

theorem digitsOf_split (w₁ w₂ : Nat) : ∀ n, n < 10 ^ (w₁ + w₂) →
    digitsOf (w₁ + w₂) n = digitsOf w₁ (n / 10 ^ w₂) ++ digitsOf w₂ (n % 10 ^ w₂) := by
  induction w₁ with
  | zero =>
    intro n hn
    rw [Nat.zero_add] at hn
    show digitsOf (0 + w₂) n = [] ++ digitsOf w₂ (n % 10 ^ w₂)
    rw [Nat.zero_add, List.nil_append, Nat.mod_eq_of_lt hn]
  | succ w₁ ih =>
    intro n hn
    have hp₂ : 0 < 10 ^ w₂ := pow_pos (by norm_num) w₂
    have hpow : 10 ^ (w₁ + w₂) = 10 ^ w₂ * 10 ^ w₁ := by
      rw [← pow_add, Nat.add_comm]
    have hhead : n / 10 ^ (w₁ + w₂) = n / 10 ^ w₂ / 10 ^ w₁ := by
      rw [Nat.div_div_eq_div_mul, ← hpow]
    have hmoddiv : n % 10 ^ (w₁ + w₂) / 10 ^ w₂ = n / 10 ^ w₂ % 10 ^ w₁ := by
      rw [hpow, Nat.mod_mul_right_div_self]
    have hmodmod : n % 10 ^ (w₁ + w₂) % 10 ^ w₂ = n % 10 ^ w₂ := by
      apply Nat.mod_mod_of_dvd
      exact ⟨10 ^ w₁, hpow⟩
    have hstep : w₁ + 1 + w₂ = (w₁ + w₂) + 1 := by omega
    rw [hstep]
    show digitChar (n / 10 ^ (w₁ + w₂)) :: digitsOf (w₁ + w₂) (n % 10 ^ (w₁ + w₂)) =
      (digitChar (n / 10 ^ w₂ / 10 ^ w₁) :: digitsOf w₁ (n / 10 ^ w₂ % 10 ^ w₁)) ++
        digitsOf w₂ (n % 10 ^ w₂)
    rw [List.cons_append, hhead]
    congr 1
    rw [ih (n % 10 ^ (w₁ + w₂)) (Nat.mod_lt n (pow_pos (by norm_num) _)),
      hmoddiv, hmodmod]

/-- Lexicographic comparison of the two printed fraction digit blocks
(`digitsOf a va` of value `va * 10^(9-a)` vs `digitsOf b vb` of value
`vb * 10^(9-b)`), each followed by the zone suffix: the shorter block is
compared against the longer one digit by digit, and when the shorter is a
prefix-value tie, the `'+'` of its zone sorts before any further digit. -/
theorem fracDigits_lt {a b va vb : Nat} (ha : 0 < a) (hb : 0 < b)
    (ha9 : a ≤ 9) (hb9 : b ≤ 9) (hva : va < 10 ^ a) (hvb : vb < 10 ^ b)
    (h : va * 10 ^ (9 - a) < vb * 10 ^ (9 - b)) :
    (digitsOf a va ++ zoneChars) < (digitsOf b vb ++ zoneChars) := by
  rcases Nat.lt_trichotomy a b with hab | hab | hab
  · obtain ⟨c, hc, rfl⟩ : ∃ c, 0 < c ∧ b = a + c := ⟨b - a, by omega, by omega⟩
    have hpc : 0 < 10 ^ c := pow_pos (by norm_num) c
    have hk : 9 - a = (9 - (a + c)) + c := by omega
    have h₂ : va * 10 ^ c < vb := by
      refine lt_of_mul_lt_mul_right ?_ (Nat.zero_le (10 ^ (9 - (a + c))))
      calc va * 10 ^ c * 10 ^ (9 - (a + c)) = va * 10 ^ (9 - a) := by rw [hk]; ring
        _ < vb * 10 ^ (9 - (a + c)) := h
    have hsplit := digitsOf_split a c vb hvb
    rw [hsplit, List.append_assoc]
    have hhi : vb / 10 ^ c < 10 ^ a := by
      rw [Nat.div_lt_iff_lt_mul hpc, ← pow_add]
      exact hvb
    rcases Nat.lt_or_ge va (vb / 10 ^ c) with hlt | hge
    · exact lex_append_of_lt (digitsOf_lt a hlt hhi)
        (by rw [digitsOf_length, digitsOf_length]) _ _
    · have heq : va = vb / 10 ^ c := by
        have : va ≤ vb / 10 ^ c := (Nat.le_div_iff_mul_le hpc).mpr (Nat.le_of_lt h₂)
        omega
      rw [← heq]
      apply lex_append_left
      obtain ⟨c₂, rfl⟩ : ∃ c₂, c = c₂ + 1 := ⟨c - 1, by omega⟩
      have hlo : vb % 10 ^ (c₂ + 1) < 10 ^ (c₂ + 1) :=
        Nat.mod_lt vb (pow_pos (by norm_num) _)
      have hdig : vb % 10 ^ (c₂ + 1) / 10 ^ c₂ ≤ 9 := by
        have : vb % 10 ^ (c₂ + 1) / 10 ^ c₂ < 10 := by
          rw [Nat.div_lt_iff_lt_mul (pow_pos (by norm_num) c₂)]
          calc vb % 10 ^ (c₂ + 1) < 10 ^ (c₂ + 1) := hlo
            _ = 10 * 10 ^ c₂ := by ring
        omega
      exact List.Lex.rel (plus_lt_digitChar hdig)
  · subst hab
    have hv : va < vb := lt_of_mul_lt_mul_right h (Nat.zero_le _)
    exact lex_append_of_lt (digitsOf_lt a hv hvb)
      (by rw [digitsOf_length, digitsOf_length]) _ _
  · obtain ⟨c, hc, rfl⟩ : ∃ c, 0 < c ∧ a = b + c := ⟨a - b, by omega, by omega⟩
    have hpc : 0 < 10 ^ c := pow_pos (by norm_num) c
    have hk : 9 - b = (9 - (b + c)) + c := by omega
    have h₂ : va < vb * 10 ^ c := by
      refine lt_of_mul_lt_mul_right ?_ (Nat.zero_le (10 ^ (9 - (b + c))))
      calc va * 10 ^ (9 - (b + c)) < vb * 10 ^ (9 - b) := h
        _ = vb * 10 ^ c * 10 ^ (9 - (b + c)) := by rw [hk]; ring
    have hhi : va / 10 ^ c < vb := (Nat.div_lt_iff_lt_mul hpc).mpr h₂
    have hsplit := digitsOf_split b c va hva
    rw [hsplit, List.append_assoc]
    exact lex_append_of_lt (digitsOf_lt b hhi hvb)
      (by rw [digitsOf_length, digitsOf_length]) _ _

theorem frac_val_3 {n : Nat} (h6 : n % 1000000 = 0) : n / 1000000 * 10 ^ (9 - 3) = n := by
  have : (10 : Nat) ^ (9 - 3) = 1000000 := by norm_num
  rw [this]
  exact Nat.div_mul_cancel (Nat.dvd_of_mod_eq_zero h6)

theorem frac_val_6 {n : Nat} (h3 : n % 1000 = 0) : n / 1000 * 10 ^ (9 - 6) = n := by
  have : (10 : Nat) ^ (9 - 6) = 1000 := by norm_num
  rw [this]
  exact Nat.div_mul_cancel (Nat.dvd_of_mod_eq_zero h3)

theorem frac_val_9 (n : Nat) : n * 10 ^ (9 - 9) = n := by norm_num

theorem frac_bound_3 {n : Nat} (hn : n < 1000000000) : n / 1000000 < 10 ^ 3 := by
  have : (10 : Nat) ^ 3 = 1000 := by norm_num
  omega

theorem frac_bound_6 {n : Nat} (hn : n < 1000000000) : n / 1000 < 10 ^ 6 := by
  have : (10 : Nat) ^ 6 = 1000000 := by norm_num
  omega

theorem frac_bound_9 {n : Nat} (hn : n < 1000000000) : n < 10 ^ 9 := by
  have : (10 : Nat) ^ 9 = 1000000000 := by norm_num
  omega

/-- Lexicographic comparison of the full fraction-plus-zone suffixes
follows the nanosecond order. -/
theorem frac_zone_lt {n₁ n₂ : Nat} (h : n₁ < n₂) (hn₂ : n₂ < 1000000000) :
    (fracChars n₁ ++ zoneChars) < (fracChars n₂ ++ zoneChars) := by
  have hn₁ : n₁ < 1000000000 := by omega
  by_cases h₁0 : n₁ = 0
  · subst h₁0
    show fracChars 0 ++ zoneChars < fracChars n₂ ++ zoneChars
    rw [show fracChars 0 = [] from rfl, List.nil_append]
    unfold fracChars
    rw [if_neg (by omega : ¬n₂ = 0)]
    by_cases h6 : n₂ % 1000000 = 0
    · rw [if_pos h6]; exact List.Lex.rel plus_lt_dot
    · rw [if_neg h6]
      by_cases h3 : n₂ % 1000 = 0
      · rw [if_pos h3]; exact List.Lex.rel plus_lt_dot
      · rw [if_neg h3]; exact List.Lex.rel plus_lt_dot
  · have h₂0 : ¬n₂ = 0 := by omega
    unfold fracChars
    rw [if_neg h₁0, if_neg h₂0]
    by_cases h₁6 : n₁ % 1000000 = 0
    · rw [if_pos h₁6]
      by_cases h₂6 : n₂ % 1000000 = 0
      · rw [if_pos h₂6]
        exact List.Lex.cons (fracDigits_lt (by norm_num) (by norm_num) (by norm_num)
          (by norm_num) (frac_bound_3 hn₁) (frac_bound_3 hn₂)
          (by rw [frac_val_3 h₁6, frac_val_3 h₂6]; exact h))
      · rw [if_neg h₂6]
        by_cases h₂3 : n₂ % 1000 = 0
        · rw [if_pos h₂3]
          exact List.Lex.cons (fracDigits_lt (by norm_num) (by norm_num) (by norm_num)
            (by norm_num) (frac_bound_3 hn₁) (frac_bound_6 hn₂)
            (by rw [frac_val_3 h₁6, frac_val_6 h₂3]; exact h))
        · rw [if_neg h₂3]
          exact List.Lex.cons (fracDigits_lt (by norm_num) (by norm_num) (by norm_num)
            (by norm_num) (frac_bound_3 hn₁) (frac_bound_9 hn₂)
            (by rw [frac_val_3 h₁6, frac_val_9 n₂]; exact h))
    · rw [if_neg h₁6]
      by_cases h₁3 : n₁ % 1000 = 0
      · rw [if_pos h₁3]
        by_cases h₂6 : n₂ % 1000000 = 0
        · rw [if_pos h₂6]
          exact List.Lex.cons (fracDigits_lt (by norm_num) (by norm_num) (by norm_num)
            (by norm_num) (frac_bound_6 hn₁) (frac_bound_3 hn₂)
            (by rw [frac_val_6 h₁3, frac_val_3 h₂6]; exact h))
        · rw [if_neg h₂6]
          by_cases h₂3 : n₂ % 1000 = 0
          · rw [if_pos h₂3]
            exact List.Lex.cons (fracDigits_lt (by norm_num) (by norm_num) (by norm_num)
              (by norm_num) (frac_bound_6 hn₁) (frac_bound_6 hn₂)
              (by rw [frac_val_6 h₁3, frac_val_6 h₂3]; exact h))
          · rw [if_neg h₂3]
            exact List.Lex.cons (fracDigits_lt (by norm_num) (by norm_num) (by norm_num)
              (by norm_num) (frac_bound_6 hn₁) (frac_bound_9 hn₂)
              (by rw [frac_val_6 h₁3, frac_val_9 n₂]; exact h))
      · rw [if_neg h₁3]
        by_cases h₂6 : n₂ % 1000000 = 0
        · rw [if_pos h₂6]
          exact List.Lex.cons (fracDigits_lt (by norm_num) (by norm_num) (by norm_num)
            (by norm_num) (frac_bound_9 hn₁) (frac_bound_3 hn₂)
            (by rw [frac_val_9 n₁, frac_val_3 h₂6]; exact h))
        · rw [if_neg h₂6]
          by_cases h₂3 : n₂ % 1000 = 0
          · rw [if_pos h₂3]
            exact List.Lex.cons (fracDigits_lt (by norm_num) (by norm_num) (by norm_num)
              (by norm_num) (frac_bound_9 hn₁) (frac_bound_6 hn₂)
              (by rw [frac_val_9 n₁, frac_val_6 h₂3]; exact h))
          · rw [if_neg h₂3]
            exact List.Lex.cons (fracDigits_lt (by norm_num) (by norm_num) (by norm_num)
              (by norm_num) (frac_bound_9 hn₁) (frac_bound_9 hn₂)
              (by rw [frac_val_9 n₁, frac_val_9 n₂]; exact h))

theorem key_field_cases {t₁ t₂ : UtcTime} (h₁ : t₁.Valid) (h₂ : t₂.Valid)
    (h : t₁.key < t₂.key) :
    t₁.year < t₂.year ∨ (t₁.year = t₂.year ∧ (t₁.month < t₂.month ∨ (t₁.month = t₂.month ∧
      (t₁.day < t₂.day ∨ (t₁.day = t₂.day ∧ (t₁.hour < t₂.hour ∨ (t₁.hour = t₂.hour ∧
      (t₁.minute < t₂.minute ∨ (t₁.minute = t₂.minute ∧ (t₁.second < t₂.second ∨
      (t₁.second = t₂.second ∧ t₁.nano < t₂.nano))))))))))) := by
  obtain ⟨a₁, a₂, a₃, a₄, a₅, a₆, a₇, a₈, a₉, a₁₀⟩ := t₁.valid_bounds h₁
  obtain ⟨b₁, b₂, b₃, b₄, b₅, b₆, b₇, b₈, b₉, b₁₀⟩ := t₂.valid_bounds h₂
  unfold UtcTime.key at h
  omega

theorem key_inj {t₁ t₂ : UtcTime} (h₁ : t₁.Valid) (h₂ : t₂.Valid)
    (h : t₁.key = t₂.key) : t₁ = t₂ := by
  obtain ⟨a₁, a₂, a₃, a₄, a₅, a₆, a₇, a₈, a₉, a₁₀⟩ := t₁.valid_bounds h₁
  obtain ⟨b₁, b₂, b₃, b₄, b₅, b₆, b₇, b₈, b₉, b₁₀⟩ := t₂.valid_bounds h₂
  unfold UtcTime.key at h
  have he : t₁.year = t₂.year ∧ t₁.month = t₂.month ∧ t₁.day = t₂.day ∧
      t₁.hour = t₂.hour ∧ t₁.minute = t₂.minute ∧ t₁.second = t₂.second ∧
      t₁.nano = t₂.nano := by omega
  obtain ⟨e₁, e₂, e₃, e₄, e₅, e₆, e₇⟩ := he
  cases t₁
  cases t₂
  simp only [UtcTime.mk.injEq]
  exact ⟨e₁, e₂, e₃, e₄, e₅, e₆, e₇⟩

/-- Printing is strictly monotone: a chronologically earlier valid
instant prints to a lexicographically smaller string. -/
theorem rfcChars_lt_of_key_lt {t₁ t₂ : UtcTime} (h₁ : t₁.Valid) (h₂ : t₂.Valid)
    (h : chronoLt t₁ t₂) : rfcChars t₁ < rfcChars t₂ := by
  obtain ⟨b₁, b₂, b₃, b₄, b₅, b₆, b₇, b₈, b₉, b₁₀⟩ := t₂.valid_bounds h₂
  unfold rfcChars
  rcases key_field_cases h₁ h₂ h with
    hy | ⟨hy, hmo | ⟨hmo, hd | ⟨hd, hh | ⟨hh, hmi | ⟨hmi, hs | ⟨hs, hna⟩⟩⟩⟩⟩⟩
  · exact lex_append_of_lt (digitsOf_lt 4 hy (by omega))
      (by rw [digitsOf_length, digitsOf_length]) _ _
  · rw [hy]
    apply lex_append_left
    apply List.Lex.cons
    exact lex_append_of_lt (digitsOf_lt 2 hmo (by omega))
      (by rw [digitsOf_length, digitsOf_length]) _ _
  · rw [hy, hmo]
    apply lex_append_left
    apply List.Lex.cons
    apply lex_append_left
    apply List.Lex.cons
    exact lex_append_of_lt (digitsOf_lt 2 hd (by omega))
      (by rw [digitsOf_length, digitsOf_length]) _ _
  · rw [hy, hmo, hd]
    apply lex_append_left
    apply List.Lex.cons
    apply lex_append_left
    apply List.Lex.cons
    apply lex_append_left
    apply List.Lex.cons
    exact lex_append_of_lt (digitsOf_lt 2 hh (by omega))
      (by rw [digitsOf_length, digitsOf_length]) _ _
  · rw [hy, hmo, hd, hh]
    apply lex_append_left
    apply List.Lex.cons
    apply lex_append_left
    apply List.Lex.cons
    apply lex_append_left
    apply List.Lex.cons
    apply lex_append_left
    apply List.Lex.cons
    exact lex_append_of_lt (digitsOf_lt 2 hmi (by omega))
      (by rw [digitsOf_length, digitsOf_length]) _ _
  · rw [hy, hmo, hd, hh, hmi]
    apply lex_append_left
    apply List.Lex.cons
    apply lex_append_left
    apply List.Lex.cons
    apply lex_append_left
    apply List.Lex.cons
    apply lex_append_left
    apply List.Lex.cons
    apply lex_append_left
    apply List.Lex.cons
    exact lex_append_of_lt (digitsOf_lt 2 hs (by omega))
      (by rw [digitsOf_length, digitsOf_length]) _ _
  · rw [hy, hmo, hd, hh, hmi, hs]
    apply lex_append_left
    apply List.Lex.cons
    apply lex_append_left
    apply List.Lex.cons
    apply lex_append_left
    apply List.Lex.cons
    apply lex_append_left
    apply List.Lex.cons
    apply lex_append_left
    apply List.Lex.cons
    apply lex_append_left
    exact frac_zone_lt hna (by omega)

/-- Claim C10: the stored timestamp text encoding round-trips and sorts:
for all valid UTC instants (chrono's four-digit-year printing range,
which covers everything the store writes), parsing back the
`to_rfc3339` text yields the identical instant, and lexicographic
comparison of two printed strings agrees exactly with chronological
order — so the string comparisons in the store's SQL
(`start >= ?`, `end <= ?`, `start < ?`) implement the intended timestamp
comparisons. -/
theorem rfc3339_roundtrip_and_sortable (t₁ t₂ : UtcTime)
    (h₁ : t₁.Valid) (h₂ : t₂.Valid) :
    parseRfc3339 (toRfc3339 t₁) = some t₁ ∧
    (toRfc3339 t₁ < toRfc3339 t₂ ↔ chronoLt t₁ t₂) := by
  refine ⟨parseChars_rfcChars t₁ h₁, ?_⟩
  rw [String.lt_iff_toList_lt]
  show rfcChars t₁ < rfcChars t₂ ↔ chronoLt t₁ t₂
  constructor
  · intro hs
    rcases Nat.lt_trichotomy t₁.key t₂.key with hk | hk | hk
    · exact hk
    · exact absurd hs (by rw [key_inj h₁ h₂ hk]; exact lt_irrefl _)
    · exact absurd hs (lt_asymm (rfcChars_lt_of_key_lt h₂ h₁ hk))
  · exact rfcChars_lt_of_key_lt h₁ h₂

/-- Witness for the C10 theorem at two concrete instants. -/
theorem rfc3339_roundtrip_and_sortable_example :
    (⟨2023, 5, 6, 7, 8, 9, 500000000⟩ : UtcTime).Valid ∧
    (⟨2024, 1, 2, 3, 4, 5, 0⟩ : UtcTime).Valid ∧
    (parseRfc3339 (toRfc3339 ⟨2023, 5, 6, 7, 8, 9, 500000000⟩) =
        some ⟨2023, 5, 6, 7, 8, 9, 500000000⟩ ∧
      (toRfc3339 ⟨2023, 5, 6, 7, 8, 9, 500000000⟩ < toRfc3339 ⟨2024, 1, 2, 3, 4, 5, 0⟩ ↔
        chronoLt ⟨2023, 5, 6, 7, 8, 9, 500000000⟩ ⟨2024, 1, 2, 3, 4, 5, 0⟩)) :=
  ⟨by unfold UtcTime.Valid; decide, by unfold UtcTime.Valid; decide,
    rfc3339_roundtrip_and_sortable _ _ (by unfold UtcTime.Valid; decide)
      (by unfold UtcTime.Valid; decide)⟩

/-- Claim C1: the spec says any `start`/`start_entry` call on a store that
already holds an unfinished entry fails with `UnfinishedExists`.  The code
has no such check: on a store whose single row `("A", start 0)` is
unfinished, `start_entry("B", 10)` succeeds and inserts a second
(simultaneously unfinished) row, and no execution of `start_entry` ever
returns the `UnfinishedExists` error — the variant is declared in
`errors.rs` but never constructed. -/
theorem start_entry_ignores_unfinished :
    startEntry ⟨[⟨0, "A", 0, none, ""⟩], 1⟩ "B" 10 "" =
      .ok ⟨[⟨0, "A", 0, none, ""⟩, ⟨1, "B", 10, none, ""⟩], 2⟩ ∧
    ∀ (s : Store) (t : String) (st : Nat) (no x : String),
      startEntry s t st no ≠ .error (.unfinishedExists x) := by
  refine ⟨rfl, ?_⟩
  intro s t st no x
  unfold startEntry
  split <;> simp

/-- Claim C9, counterexample: the spec says `start` with an empty title is
rejected with `InvalidInput` before any row is written; in the code
`ClockingStore::start` performs no title validation, so on an empty store
the call succeeds and persists a row whose title is the empty string. -/
theorem start_empty_title_succeeds :
    start Store.empty "" 0 = .ok ⟨[⟨0, "", 0, none, ""⟩], 1⟩ := rfl

/-- Claim C9, amended: empty-title rejection lives at the HTTP boundary,
not in the store: `api_start` answers `BadRequest` and leaves the store
untouched whenever the title is empty, while the store-level `start`
itself accepts the empty title. -/
theorem api_start_rejects_empty_title (s : Store) (now : Nat) :
    apiStart s "" now = (.badRequest, s) := by
  have h : "".isEmpty = true := rfl
  simp [apiStart, h]

/-- Claim C2, counterexample: the spec says no sequence of API calls ever
produces a finished row with `end <= start`.  But `try_finish_title`
stamps `end = Utc::now()` without comparing it to the row's start, so
starting an entry with the future start time 100 and finishing it by
title at time 50 yields a stored row with `end = 50 <= 100 = start`. -/
theorem finish_title_can_end_before_start :
    runOps Store.empty [.start "A" 100 "", .finishTitle 50 "A" ""] =
      ⟨[⟨0, "A", 100, some 50, ""⟩], 1⟩ ∧
    rowOk ⟨0, "A", 100, some 50, ""⟩ = false := by
  exact ⟨by decide, by decide⟩

end Clocking
